import Mathlib

/-!
# Verification of the telematics research dashboard's statistical core

This file gives a shallow embedding of the dashboard's statistical core
(the Spearman rank-correlation engine `spearmanCorrelation`, the matrix
builder `calculateCorrelationMatrix`, and the CSV score deriver
`parseCSVData`) and proves properties of it.

Modelling conventions:
* JavaScript numbers are modelled as exact rationals (`ℚ`).  All values
  reachable in this program are either exact in binary floating point or
  far from any comparison/rounding boundary, so the exact-rational model
  agrees with the double-precision computation on every property below.
* A JavaScript computation that can produce the non-finite values `NaN` or
  `±Infinity` is modelled with `Option ℚ`, where `none` stands for a
  non-finite result.  The only source of non-finite values in this program
  is the division `0 / 0` inside `spearmanCorrelation` when `n = 1`
  (numerator and denominator are then both zero), modelled by `jsDiv`.
* JavaScript's stable `Array.prototype.sort` is modelled by
  `List.insertionSort`, which is a stable sort; the two agree on every
  list on which the comparison function is consistent (which is the case
  on every list this program sorts, see `sortRel` below).
-/

/-- JS division `a / b` on finite operands: a finite rational unless the
denominator is zero, in which case JS yields `NaN` or `±Infinity` (both
non-finite, modelled `none`). -/
def jsDiv (a b : ℚ) : Option ℚ := if b = 0 then none else some (a / b)

/-- JS `x.toFixed(2)` followed by `parseFloat`, on a finite value: round to
the nearest multiple of `1/100`, ties toward `+∞` (ECMAScript's `toFixed`
picks the larger candidate integer on a tie). -/
def toFixed2 (q : ℚ) : ℚ := (⌊q * 100 + 1 / 2⌋ : ℚ) / 100

/-- JS `x.toFixed(3)` followed by `parseFloat`, on a finite value: round to
the nearest multiple of `1/1000`, ties toward `+∞`. -/
def toFixed3 (q : ℚ) : ℚ := (⌊q * 1000 + 1 / 2⌋ : ℚ) / 1000

/-- JS `Math.abs(v) >= t` for `v` a possibly non-finite value: any
comparison with `NaN` is false (and `Math.abs` of a non-finite value is
non-finite). -/
def jsAbsGe (o : Option ℚ) (t : ℚ) : Bool :=
  match o with
  | some q => decide (t ≤ |q|)
  | none => false

/-!
## The Spearman correlation engine

Source (`spearmanCorrelation`):

```js
const n = x.length;
if (n !== y.length || n === 0) return 0;
const rank = (arr) => {
  const sorted = [...arr].map((v, i) => ({ v, i })).sort((a, b) => a.v - b.v);
  const ranks = new Array(n);
  for (let i = 0; i < n; i++) { ranks[sorted[i].i] = i + 1; }
  return ranks;
};
const rankX = rank(x); const rankY = rank(y);
let dSquaredSum = 0;
for (let i = 0; i < n; i++) { dSquaredSum += Math.pow(rankX[i] - rankY[i], 2); }
const rho = 1 - (6 * dSquaredSum) / (n * (n * n - 1));
return rho;
```
-/

/-- The `(value, index)` pairs of `arr`, stably sorted by value: the
`[...arr].map((v, i) => ({v, i})).sort((a, b) => a.v - b.v)` step of the
rank helper.  JS `sort` with comparator `a.v - b.v` is a stable sort by
the value component. -/
def rankPairs (arr : List ℚ) : List (ℚ × Nat) :=
  List.insertionSort (fun a b => a.1 ≤ b.1) (arr.enum.map fun p => (p.2, p.1))

/-- The rank loop `ranks[sorted[i].i] = i + 1` assigns, to each original
index, its (0-based) position in the sorted order; `rankAux` returns that
position, so that the rank at original index `i` is `rankAux arr ⟨i⟩ + 1`. -/
def rankAux (arr : List ℚ) : List Nat :=
  let sortedIdx := (rankPairs arr).map Prod.snd
  (List.range arr.length).map fun i => sortedIdx.indexOf i

/-- The rank list of the source: rank 1 is the smallest value, ties get
distinct consecutive ranks in input order (stable sort order). -/
def rankList (arr : List ℚ) : List ℚ :=
  (rankAux arr).map fun k : ℕ => (k : ℚ) + 1

/-- `spearmanCorrelation x y` from the source.  Mismatched lengths and
`n = 0` return `0`.  Otherwise `ρ = 1 − 6·Σd² / (n·(n²−1))`; for `n = 1`
the denominator is `0` and JS computes `1 - 0/0 = NaN` (modelled `none`). -/
def spearmanCorrelation (x y : List ℚ) : Option ℚ :=
  let n := x.length
  if n ≠ y.length ∨ n = 0 then some 0
  else
    let rankX := rankList x
    let rankY := rankList y
    let dSquaredSum : ℚ := ((rankX.zip rankY).map fun p => (p.1 - p.2) ^ 2).sum
    (jsDiv (6 * dSquaredSum) ((n : ℚ) * ((n : ℚ) * (n : ℚ) - 1))).map fun q => 1 - q

/-!
## Data model and the correlation matrix
-/

/-- `DataItem` of the source: one scored respondent. -/
structure DataItem where
  id : Nat
  intensity : ℚ
  dependency : ℚ
  competence : ℚ
  alienation : ℚ
  usageGroup : String
deriving DecidableEq

/-- `CorrelationItem` of the source: one unordered variable pair.
`correlation` stores `parseFloat(corr.toFixed(3))`, which is `NaN`
(modelled `none`) when `corr` is `NaN`. -/
structure CorrelationItem where
  var1 : String
  var2 : String
  label1 : String
  label2 : String
  correlation : Option ℚ
  significant : Bool
deriving DecidableEq

/-- The fixed `variables` list of the source (renamed: `variables` is a
reserved token in Lean). -/
def variableNames : List String :=
  ["intensity", "dependency", "competence", "alienation"]

/-- The fixed `labels` list of the source. -/
def labels : List String :=
  ["Intensitas Digital", "Ketergantungan Psikologis", "Kompetensi Tatap Muka",
    "Alienasi Sosial"]

/-- Dynamic field access `d[variables[i]]` of the source.  Only the four
variable names are ever passed; the catch-all branch is unreachable. -/
def getField (d : DataItem) (s : String) : ℚ :=
  if s = "intensity" then d.intensity
  else if s = "dependency" then d.dependency
  else if s = "competence" then d.competence
  else if s = "alienation" then d.alienation
  else 0

/-- The index pairs `(i, j)` with `0 ≤ i < j < 4` in the enumeration order
of the source's nested loops (`for i`, `for j = i + 1`). -/
def pairIndices : List (Nat × Nat) :=
  (List.range 4).flatMap fun i =>
    ((List.range 4).filter fun j => decide (i < j)).map fun j => (i, j)

/-- The entry pushed by the loop body of `calculateCorrelationMatrix` for
the pair `(i, j)`:

```js
const x = data.map(d => d[variables[i]]);
const y = data.map(d => d[variables[j]]);
const corr = spearmanCorrelation(x, y);
matrix.push({ var1: variables[i], var2: variables[j],
  label1: labels[i], label2: labels[j],
  correlation: parseFloat(corr.toFixed(3)),
  significant: Math.abs(corr) >= 0.25 });
```
-/
def mkEntry (data : List DataItem) (i j : Nat) : CorrelationItem :=
  let x := data.map fun d => getField d (variableNames.getD i "")
  let y := data.map fun d => getField d (variableNames.getD j "")
  let corr := spearmanCorrelation x y
  { var1 := variableNames.getD i ""
    var2 := variableNames.getD j ""
    label1 := labels.getD i ""
    label2 := labels.getD j ""
    correlation := corr.map toFixed3
    significant := jsAbsGe corr (1 / 4) }

/-- The unsorted `matrix` array built by the two nested loops of
`calculateCorrelationMatrix`. -/
def matrixEntries (data : List DataItem) : List CorrelationItem :=
  pairIndices.map fun p => mkEntry data p.1 p.2

/-- The sort key: `Math.abs(e.correlation)`, non-finite (`none`) when the
stored correlation is `NaN`. -/
def sortKey (e : CorrelationItem) : Option ℚ := e.correlation.map fun q => |q|

/-- The comparator `(a, b) => Math.abs(b.correlation) - Math.abs(a.correlation)`
of the source's `matrix.sort`, as the relation "`a` may precede `b`"
(comparator value `≤ 0`).  When both keys are finite this is exactly
`|b.correlation| ≤ |a.correlation|`.  When a key is `NaN` the comparator
returns `NaN`, which ECMAScript's sort coerces to `0` (equal); the lists
this program sorts have either all keys finite or all keys `NaN` (never a
mixture), and on such lists the comparator is consistent and every stable
sort gives the same result.  On the unreachable mixed lists the sort order
is implementation-defined, and this model places `NaN` keys first so that
the relation is total and transitive. -/
def sortRelB (a b : CorrelationItem) : Bool :=
  match sortKey a, sortKey b with
  | some p, some q => decide (q ≤ p)
  | none, _ => true
  | some _, none => false

/-- Propositional form of `sortRelB`. -/
def sortRel (a b : CorrelationItem) : Prop := sortRelB a b = true

instance : DecidableRel sortRel := fun a b => instDecidableEqBool (sortRelB a b) true

/-- `calculateCorrelationMatrix` of the source: build the six entries and
sort them by descending absolute correlation with the stable sort. -/
def calculateCorrelationMatrix (data : List DataItem) : List CorrelationItem :=
  List.insertionSort sortRel (matrixEntries data)

/-- Line 334 of the source (`ResearchDashboard`):
`const correlations = data.length > 0 ? calculateCorrelationMatrix(data) : [];`. -/
def dashboardCorrelations (data : List DataItem) : List CorrelationItem :=
  if 0 < data.length then calculateCorrelationMatrix data else []

/-!
## The CSV score deriver

Source (`parseCSVData`): trim the text, split into lines, drop the header,
split each line on commas outside quoted spans, read integer cells with
`parseInt(values[idx]) || 0`, average the fixed column groups, round to two
decimals, classify the usage group, and keep rows whose intensity is a
number.
-/

/-- The number of `"` characters in a character list. -/
def countQuotes (cs : List Char) : Nat := cs.countP fun c => decide (c = '"')

/-- The quote-aware split of the source,
`line.split(/,(?=(?:(?:[^"]*"){2})*[^"]*$)/)`: split at each comma that is
followed (up to the end of the line) by an even number of `"` characters. -/
def qsplit : List Char → List (List Char)
  | [] => [[]]
  | c :: rest =>
    if c = ',' ∧ countQuotes rest % 2 = 0 then [] :: qsplit rest
    else
      match qsplit rest with
      | [] => [[c]]
      | f :: rs => (c :: f) :: rs

/-- JS `text.split('\n')`. -/
def splitNewline : List Char → List (List Char)
  | [] => [[]]
  | c :: rest =>
    if c = '\n' then [] :: splitNewline rest
    else
      match splitNewline rest with
      | [] => [[c]]
      | f :: rs => (c :: f) :: rs

/-- JS `text.trim()`: remove whitespace (including newlines) from both
ends. -/
def jsTrim (cs : List Char) : List Char :=
  ((cs.dropWhile Char.isWhitespace).reverse.dropWhile Char.isWhitespace).reverse

/-- The numeric value of a list of decimal digit characters. -/
def digitsVal (ds : List Char) : Nat := ds.foldl (fun a c => a * 10 + (c.toNat - 48)) 0

/-- The leading run of decimal digits, or `none` if there is none. -/
def parseDigits (cs : List Char) : Option Nat :=
  let ds := cs.takeWhile Char.isDigit
  if ds.isEmpty then none else some (digitsVal ds)

/-- JS `parseInt(s)` (radix 10) on the strings this program feeds it: skip
leading whitespace, read an optional sign and then a leading run of
decimal digits; `NaN` (modelled `none`) if no digit follows.  (The `0x`
hex-prefix branch of full `parseInt` is not modelled; no CSV cell this
parser is pointed at uses it.) -/
def jsParseInt (cs : List Char) : Option Int :=
  match cs.dropWhile Char.isWhitespace with
  | '-' :: rest => (parseDigits rest).map fun n => -(n : Int)
  | '+' :: rest => (parseDigits rest).map fun n => (n : Int)
  | rest => (parseDigits rest).map fun n => (n : Int)

/-- `const getVal = (idx) => parseInt(values[idx]) || 0;` of the source.
An out-of-range index gives `undefined`, whose `parseInt` is `NaN`; `|| 0`
collapses both `NaN` and `±0` to `0`, so the result is always a finite
integer. -/
def getVal (values : List (List Char)) (idx : Nat) : Int :=
  ((values.get? idx).bind jsParseInt).getD 0

/-- The row-scoring body of the source's `lines.slice(1).map((line, index) => ...)`. -/
def scoreRow (index : Nat) (line : List Char) : DataItem :=
  let values := qsplit line
  let intensityScore : ℚ :=
    ((getVal values 2 + getVal values 4 + getVal values 5 + getVal values 18 +
        getVal values 19 : ℤ) : ℚ) / 5
  let dependencyScore : ℚ :=
    ((getVal values 3 + getVal values 6 + getVal values 20 + getVal values 21 +
        getVal values 22 : ℤ) : ℚ) / 5
  let competenceScore : ℚ :=
    ((getVal values 7 + getVal values 8 + getVal values 9 + getVal values 10 : ℤ) : ℚ) / 4
  let alienationScore : ℚ :=
    ((getVal values 13 + getVal values 14 + getVal values 15 + getVal values 16 +
        getVal values 17 : ℤ) : ℚ) / 5
  { id := index + 1
    intensity := toFixed2 intensityScore
    dependency := toFixed2 dependencyScore
    competence := toFixed2 competenceScore
    alienation := toFixed2 alienationScore
    usageGroup := if 4 ≤ getVal values 2 then "Heavy User (>6 Jam)" else "Moderate/Light" }

/-- JS `isNaN(v)` on the intensity score.  Every score built by `scoreRow`
is a finite rational, because `getVal` collapses every cell-parse failure
to the integer `0` before any arithmetic happens and the divisors `5` and
`4` are non-zero, so on this model `isNaN` is identically false.  The
filter of the source is kept so that the row-rejection clause of the spec
can be stated against it. -/
def jsIsNaN (_ : ℚ) : Bool := false

/-- `parseCSVData` of the source. -/
def parseCSVData (csvText : String) : List DataItem :=
  let lines := splitNewline (jsTrim csvText.data)
  let parsedData := (lines.drop 1).enum.map fun p => scoreRow p.1 p.2
  parsedData.filter fun d => !(jsIsNaN d.intensity)


/-!
## Canonical pair bookkeeping and concrete example data

The remaining definitions are not part of the source program: they are the
fixed pair enumeration written out, plus concrete inputs used to evaluate
the program at specific points.
-/

/-- The six unordered variable pairs in the enumeration order of the
source's nested loops (`(0,1), (0,2), (0,3), (1,2), (1,3), (2,3)`). -/
def canonicalPairs : List (String × String) :=
  [("intensity", "dependency"), ("intensity", "competence"), ("intensity", "alienation"),
    ("dependency", "competence"), ("dependency", "alienation"), ("competence", "alienation")]

/-- The position of an entry's variable pair in the fixed enumeration
order of the source's nested loops. -/
def pairIdx (e : CorrelationItem) : Nat := canonicalPairs.indexOf (e.var1, e.var2)

/-- The entry `calculateCorrelationMatrix` builds for the pair
`(intensity, dependency)` on an empty record list. -/
def zeroEntryID : CorrelationItem :=
  ⟨"intensity", "dependency", "Intensitas Digital", "Ketergantungan Psikologis", some 0, false⟩

/-- The six entries `calculateCorrelationMatrix` returns for an empty
record list: every coefficient is `spearman([], []) = 0`, nothing is
significant, and the entries stay in enumeration order. -/
def emptyMatrix : List CorrelationItem :=
  [⟨"intensity", "dependency", "Intensitas Digital", "Ketergantungan Psikologis", some 0, false⟩,
    ⟨"intensity", "competence", "Intensitas Digital", "Kompetensi Tatap Muka", some 0, false⟩,
    ⟨"intensity", "alienation", "Intensitas Digital", "Alienasi Sosial", some 0, false⟩,
    ⟨"dependency", "competence", "Ketergantungan Psikologis", "Kompetensi Tatap Muka", some 0, false⟩,
    ⟨"dependency", "alienation", "Ketergantungan Psikologis", "Alienasi Sosial", some 0, false⟩,
    ⟨"competence", "alienation", "Kompetensi Tatap Muka", "Alienasi Sosial", some 0, false⟩]

/-- A column of 20 distinct values `1, …, 20`. -/
def xCol : List ℚ := [1, 2, 3, 4, 5, 6, 7, 8, 9, 10, 11, 12, 13, 14, 15, 16, 17, 18, 19, 20]

/-- `xCol` with the value pairs at (1-based) positions `(1,20)`, `(2,13)`,
`(3,7)` and `(4,5)` swapped: a permutation of `1, …, 20` whose rank
difference squares sum to `998`, giving the Spearman coefficient
`1 − 6·998/(20·399) = 166/665 ≈ 0.24956`, which is below `1/4` but rounds
to `0.250` at three decimals. -/
def yCol : List ℚ := [20, 13, 7, 5, 4, 6, 3, 8, 9, 10, 11, 12, 2, 14, 15, 16, 17, 18, 19, 1]

/-- Twenty respondent records whose `intensity` column is `xCol` and whose
`dependency` column is `yCol` (competence and alienation repeat `xCol`). -/
def recs20 : List DataItem :=
  [⟨1, 1, 20, 1, 1, "Moderate/Light"⟩,
    ⟨2, 2, 13, 2, 2, "Moderate/Light"⟩,
    ⟨3, 3, 7, 3, 3, "Moderate/Light"⟩,
    ⟨4, 4, 5, 4, 4, "Moderate/Light"⟩,
    ⟨5, 5, 4, 5, 5, "Moderate/Light"⟩,
    ⟨6, 6, 6, 6, 6, "Moderate/Light"⟩,
    ⟨7, 7, 3, 7, 7, "Moderate/Light"⟩,
    ⟨8, 8, 8, 8, 8, "Moderate/Light"⟩,
    ⟨9, 9, 9, 9, 9, "Moderate/Light"⟩,
    ⟨10, 10, 10, 10, 10, "Moderate/Light"⟩,
    ⟨11, 11, 11, 11, 11, "Moderate/Light"⟩,
    ⟨12, 12, 12, 12, 12, "Moderate/Light"⟩,
    ⟨13, 13, 2, 13, 13, "Moderate/Light"⟩,
    ⟨14, 14, 14, 14, 14, "Moderate/Light"⟩,
    ⟨15, 15, 15, 15, 15, "Moderate/Light"⟩,
    ⟨16, 16, 16, 16, 16, "Moderate/Light"⟩,
    ⟨17, 17, 17, 17, 17, "Moderate/Light"⟩,
    ⟨18, 18, 18, 18, 18, "Moderate/Light"⟩,
    ⟨19, 19, 19, 19, 19, "Moderate/Light"⟩,
    ⟨20, 20, 1, 20, 20, "Moderate/Light"⟩]

/-- A CSV with one header line and one data row whose 0-based columns
`2, 4, 5, 18, 19` are `5` and all other columns are `1`. -/
def csv7 : String :=
  "h\n1,1,5,1,5,5,1,1,1,1,1,1,1,1,1,1,1,1,5,5,1,1,1"

/-- The data row of `csv7`. -/
def row7 : List Char :=
  String.data "1,1,5,1,5,5,1,1,1,1,1,1,1,1,1,1,1,1,5,5,1,1,1"

/-!
## Generic helper lemmas
-/

/-- Every list is pairwise related by the trivial relation. -/
theorem pairwise_trivial {α : Type} : ∀ l : List α, l.Pairwise fun _ _ => True
  | [] => List.Pairwise.nil
  | _ :: t => List.Pairwise.cons (fun _ _ => trivial) (pairwise_trivial t)

/-- Inserting `x` into a list that is pairwise `r`-sorted with the
stability annotation `P` keeps the annotation, provided `x` is
`P`-before every present element (it was originally to their left). -/
theorem orderedInsert_pairwise_strong {α : Type} (r : α → α → Prop) [DecidableRel r]
    (P : α → α → Prop) (total : ∀ a b, r a b ∨ r b a)
    (htrans : ∀ a b c, r a b → r b c → r a c) (x : α) :
    ∀ M : List α, M.Pairwise (fun a b => r a b ∧ (r b a → P a b)) → (∀ b ∈ M, P x b) →
      (M.orderedInsert r x).Pairwise fun a b => r a b ∧ (r b a → P a b)
  | [], _, _ => List.Pairwise.cons (by simp) List.Pairwise.nil
  | b :: M, hM, hx => by
    simp only [List.orderedInsert]
    split_ifs with hrxb
    · refine List.Pairwise.cons ?_ hM
      intro c hc
      rcases List.mem_cons.mp hc with rfl | hcM
      · exact ⟨hrxb, fun _ => hx c (by simp)⟩
      · refine ⟨htrans x b c hrxb ((List.pairwise_cons.mp hM).1 c hcM).1,
          fun _ => hx c (List.mem_cons_of_mem b hcM)⟩
    · have hM' := (List.pairwise_cons.mp hM).2
      have hbM := (List.pairwise_cons.mp hM).1
      refine List.Pairwise.cons ?_
        (orderedInsert_pairwise_strong r P total htrans x M hM'
          fun c hc => hx c (List.mem_cons_of_mem b hc))
      intro c hc
      rcases (List.mem_orderedInsert r).mp hc with rfl | hcM
      · exact ⟨(total c b).resolve_left hrxb, fun hxc => absurd hxc hrxb⟩
      · exact hbM c hcM

/-- Stable-sort correctness with stability annotations: if the input list
is pairwise `P` (for instance, `P` = "comes earlier in the original
enumeration"), then in the sorted output any element placed before another
is `r`-below it, and on ties (`r` both ways) the original `P` order is
kept. -/
theorem insertionSort_pairwise_strong {α : Type} (r : α → α → Prop) [DecidableRel r]
    (P : α → α → Prop) (total : ∀ a b, r a b ∨ r b a)
    (htrans : ∀ a b c, r a b → r b c → r a c) :
    ∀ l : List α, l.Pairwise P →
      (l.insertionSort r).Pairwise fun a b => r a b ∧ (r b a → P a b)
  | [], _ => List.Pairwise.nil
  | x :: l, hl => by
    simp only [List.insertionSort]
    refine orderedInsert_pairwise_strong r P total htrans x _
      (insertionSort_pairwise_strong r P total htrans l (List.pairwise_cons.mp hl).2) ?_
    intro b hb
    exact (List.pairwise_cons.mp hl).1 b ((List.mem_insertionSort r).mp hb)

/-- A zipped-then-mapped sum over two equal-length lists as an indexed
sum over positions. -/
theorem zip_map_sum (f : ℚ × ℚ → ℚ) :
    ∀ (u v : List ℚ), u.length = v.length →
      ((u.zip v).map f).sum =
        ∑ i in Finset.range u.length, f (u.getD i 0, v.getD i 0)
  | [], [], _ => by simp
  | [], b :: v, h => by simp at h
  | a :: u, [], h => by simp at h
  | a :: u, b :: v, h => by
    have h' : u.length = v.length := by simpa using h
    simp only [List.zip_cons_cons, List.map_cons, List.sum_cons, List.length_cons]
    rw [Finset.sum_range_succ', zip_map_sum f u v h']
    simp only [List.getD_cons_succ, List.getD_cons_zero]
    exact (add_comm _ _)

/-- A mapped sum over `List.range` as an indexed `Finset.range` sum. -/
theorem list_range_map_sum (g : ℕ → ℚ) : ∀ n : ℕ,
    ((List.range n).map g).sum = ∑ i in Finset.range n, g i
  | 0 => by simp
  | n + 1 => by
    rw [List.range_succ, List.map_append, List.sum_append, Finset.sum_range_succ,
      list_range_map_sum g n]
    simp

/-- An indexed sum of values read from a list with `getD` as a mapped
list sum. -/
theorem sum_range_getD (g : ℕ → ℚ) : ∀ A : List ℕ,
    ∑ i in Finset.range A.length, g (A.getD i 0) = (A.map g).sum
  | [] => by simp
  | a :: A => by
    simp only [List.length_cons, List.map_cons, List.sum_cons]
    rw [Finset.sum_range_succ']
    simp only [List.getD_cons_succ, List.getD_cons_zero]
    rw [sum_range_getD g A]
    exact (add_comm _ _)

/-- Gauss sum, rational form. -/
theorem sum_range_cast (n : ℕ) :
    ∑ i in Finset.range n, (i : ℚ) = n * (n - 1) / 2 := by
  induction n with
  | zero => simp
  | succ m ih =>
    rw [Finset.sum_range_succ, ih]
    push_cast
    ring

/-- Sum of squares, rational form. -/
theorem sum_range_cast_sq (n : ℕ) :
    ∑ i in Finset.range n, (i : ℚ) ^ 2 = n * (n - 1) * (2 * n - 1) / 6 := by
  induction n with
  | zero => simp
  | succ m ih =>
    rw [Finset.sum_range_succ, ih]
    push_cast
    ring

/-- Closed form of `∑ (2·i − a)²` over `i < n`. -/
theorem sum_range_shift_sq (n : ℕ) (a : ℚ) :
    ∑ i in Finset.range n, (2 * (i : ℚ) - a) ^ 2 =
      4 * (n * (n - 1) * (2 * n - 1) / 6) - 2 * a * (2 * (n * (n - 1) / 2)) + n * a ^ 2 := by
  have hterm : ∀ i ∈ Finset.range n, (2 * (i : ℚ) - a) ^ 2 =
      4 * (i : ℚ) ^ 2 - 4 * a * (i : ℚ) + a ^ 2 := by
    intro i _
    ring
  rw [Finset.sum_congr rfl hterm]
  rw [Finset.sum_add_distrib, Finset.sum_sub_distrib, ← Finset.mul_sum, ← Finset.mul_sum,
    sum_range_cast, sum_range_cast_sq, Finset.sum_const, Finset.card_range, nsmul_eq_mul]
  ring

/-- A list count as a count over positions. -/
theorem countP_eq_countP_range (p : ℚ → Bool) : ∀ l : List ℚ,
    l.countP p = (List.range l.length).countP fun i => p (l.getD i 0)
  | [] => by simp
  | a :: t => by
    rw [List.countP_cons, countP_eq_countP_range p t, List.length_cons,
      List.range_succ_eq_map, List.countP_cons, List.countP_map]
    have hcomp : ((fun i => p ((a :: t).getD i 0)) ∘ Nat.succ) = fun i => p (t.getD i 0) := by
      funext i
      simp
    rw [hcomp]
    simp

/-- Splitting a count along a disjoint disjunction of predicates. -/
theorem countP_split {α : Type} (q r : α → Bool) : ∀ l : List α,
    (∀ a ∈ l, ¬(q a = true ∧ r a = true)) →
      l.countP (fun a => q a || r a) = l.countP q + l.countP r
  | [], _ => by simp
  | a :: t, h => by
    have ht := countP_split q r t fun b hb => h b (List.mem_cons_of_mem a hb)
    have ha := h a (List.mem_cons_self a t)
    rw [List.countP_cons, List.countP_cons, List.countP_cons, ht]
    cases hq : q a <;> cases hr : r a <;> simp_all <;> omega

/-- Evaluation rule for `toFixed2`. -/
theorem toFixed2_eq (q : ℚ) (k : ℤ) (h1 : (k : ℚ) ≤ q * 100 + 1 / 2)
    (h2 : q * 100 + 1 / 2 < k + 1) : toFixed2 q = (k : ℚ) / 100 := by
  rw [toFixed2, Int.floor_eq_iff.mpr ⟨h1, h2⟩]

/-- Evaluation rule for `toFixed3`. -/
theorem toFixed3_eq (q : ℚ) (k : ℤ) (h1 : (k : ℚ) ≤ q * 1000 + 1 / 2)
    (h2 : q * 1000 + 1 / 2 < k + 1) : toFixed3 q = (k : ℚ) / 1000 := by
  rw [toFixed3, Int.floor_eq_iff.mpr ⟨h1, h2⟩]

/-!
## Structure of the rank computation
-/

/-- The sorted pair list is a permutation of the `(value, index)` pairs. -/
theorem rankPairs_perm (arr : List ℚ) :
    List.Perm (rankPairs arr) (arr.enum.map fun p => (p.2, p.1)) :=
  List.perm_insertionSort _ _

/-- Sorting does not change the number of pairs. -/
theorem rankPairs_length (arr : List ℚ) : (rankPairs arr).length = arr.length := by
  rw [(rankPairs_perm arr).length_eq, List.length_map, List.enum_length]

/-- The sorted pair list is sorted by value. -/
theorem rankPairs_sorted (arr : List ℚ) :
    (rankPairs arr).Pairwise fun a b : ℚ × Nat => a.1 ≤ b.1 := by
  have h := insertionSort_pairwise_strong (fun a b : ℚ × Nat => a.1 ≤ b.1) (fun _ _ => True)
    (fun a b => le_total a.1 b.1) (fun _ _ _ hab hbc => le_trans hab hbc)
    (arr.enum.map fun p => (p.2, p.1)) (pairwise_trivial _)
  exact h.imp fun hab => hab.1

/-- The values of the sorted pair list are a permutation of the input. -/
theorem rankPairs_fst_perm (arr : List ℚ) :
    List.Perm ((rankPairs arr).map Prod.fst) arr := by
  have h := (rankPairs_perm arr).map Prod.fst
  rw [List.map_map] at h
  have e : (Prod.fst ∘ fun p : Nat × ℚ => (p.2, p.1)) = Prod.snd := rfl
  rw [e, List.enum_map_snd] at h
  exact h

/-- The indices of the sorted pair list are a permutation of `0, …, n−1`. -/
theorem sortedIdx_perm (arr : List ℚ) :
    List.Perm ((rankPairs arr).map Prod.snd) (List.range arr.length) := by
  have h := (rankPairs_perm arr).map Prod.snd
  rw [List.map_map] at h
  have e : (Prod.snd ∘ fun p : Nat × ℚ => (p.2, p.1)) = Prod.fst := rfl
  rw [e, List.enum_map_fst] at h
  exact h

/-- The indices of the sorted pair list have no duplicates. -/
theorem sortedIdx_nodup (arr : List ℚ) : ((rankPairs arr).map Prod.snd).Nodup :=
  (sortedIdx_perm arr).nodup_iff.mpr (List.nodup_range _)

/-- An index occurs among the sorted pairs exactly when it is in range. -/
theorem sortedIdx_mem_iff (arr : List ℚ) (i : ℕ) :
    i ∈ (rankPairs arr).map Prod.snd ↔ i < arr.length := by
  rw [(sortedIdx_perm arr).mem_iff, List.mem_range]

/-- Length of the index list of the sorted pairs. -/
theorem sortedIdx_length (arr : List ℚ) :
    ((rankPairs arr).map Prod.snd).length = arr.length := by
  rw [List.length_map, rankPairs_length]

/-- `rankAux` has the length of its input. -/
theorem rankAux_length (arr : List ℚ) : (rankAux arr).length = arr.length := by
  simp [rankAux]

/-- `rankList` has the length of its input. -/
theorem rankList_length (arr : List ℚ) : (rankList arr).length = arr.length := by
  rw [rankList, List.length_map, rankAux_length]

/-- Reading `rankAux` at an in-range position. -/
theorem rankAux_getD (arr : List ℚ) (p : ℕ) (hp : p < arr.length) :
    (rankAux arr).getD p 0 = ((rankPairs arr).map Prod.snd).indexOf p := by
  have h1 : p < (rankAux arr).length := by rw [rankAux_length]; exact hp
  rw [List.getD_eq_getElem _ _ h1]
  simp [rankAux]

/-- A rank is the 0-based sorted position plus one. -/
theorem rankList_getD (arr : List ℚ) (p : ℕ) (hp : p < arr.length) :
    (rankList arr).getD p 0 = ((rankAux arr).getD p 0 : ℚ) + 1 := by
  have h1 : p < (rankList arr).length := by rw [rankList_length]; exact hp
  have h2 : p < (rankAux arr).length := by rw [rankAux_length]; exact hp
  rw [List.getD_eq_getElem _ _ h1, List.getD_eq_getElem _ _ h2]
  simp only [rankList, List.getElem_map]

/-- The 0-based sorted positions are a permutation of `0, …, n−1`:
every rank from `1` to `n` is assigned exactly once, ties or not. -/
theorem rankAux_perm (arr : List ℚ) :
    List.Perm (rankAux arr) (List.range arr.length) := by
  have hnodup : (rankAux arr).Nodup := by
    rw [rankAux]
    refine List.Nodup.map_on ?_ (List.nodup_range _)
    intro i hi j hj hij
    have hi' : i ∈ (rankPairs arr).map Prod.snd :=
      (sortedIdx_mem_iff arr i).mpr (List.mem_range.mp hi)
    have hj' : j ∈ (rankPairs arr).map Prod.snd :=
      (sortedIdx_mem_iff arr j).mpr (List.mem_range.mp hj)
    have hi2 := List.indexOf_lt_length.mpr hi'
    have hj2 := List.indexOf_lt_length.mpr hj'
    have e1 := List.getElem_indexOf hi2
    have e2 := List.getElem_indexOf hj2
    have hsome : ((rankPairs arr).map Prod.snd)[((rankPairs arr).map Prod.snd).indexOf i]? =
        ((rankPairs arr).map Prod.snd)[((rankPairs arr).map Prod.snd).indexOf j]? := by
      rw [hij]
    rw [List.getElem?_eq_getElem hi2, List.getElem?_eq_getElem hj2, e1, e2] at hsome
    exact Option.some_injective _ hsome
  rw [List.perm_ext_iff_of_nodup hnodup (List.nodup_range _)]
  intro a
  simp only [rankAux, List.mem_map, List.mem_range]
  constructor
  · rintro ⟨i, hi, rfl⟩
    have hmem : i ∈ (rankPairs arr).map Prod.snd := (sortedIdx_mem_iff arr i).mpr hi
    have h := List.indexOf_lt_length.mpr hmem
    rwa [sortedIdx_length] at h
  · intro ha
    have hla : a < ((rankPairs arr).map Prod.snd).length := by
      rw [sortedIdx_length]
      exact ha
    refine ⟨((rankPairs arr).map Prod.snd)[a], ?_, ?_⟩
    · exact (sortedIdx_mem_iff arr _).mp (List.getElem_mem hla)
    · have hmem : ((rankPairs arr).map Prod.snd)[a] ∈ (rankPairs arr).map Prod.snd :=
        List.getElem_mem hla
      have hlt := List.indexOf_lt_length.mpr hmem
      exact ((sortedIdx_nodup arr).getElem_inj_iff).mp (List.getElem_indexOf hlt)

/-- For duplicate-free input, the 0-based rank position at `p` counts the
values smaller than the value at `p`. -/
theorem rankAux_getD_nodup (arr : List ℚ) (hnd : arr.Nodup) (p : ℕ) (hp : p < arr.length) :
    (rankAux arr).getD p 0 = arr.countP fun v => decide (v < arr.getD p 0) := by
  rw [rankAux_getD arr p hp]
  have hpm : p ∈ (rankPairs arr).map Prod.snd := (sortedIdx_mem_iff arr p).mpr hp
  have hkl : ((rankPairs arr).map Prod.snd).indexOf p < ((rankPairs arr).map Prod.snd).length :=
    List.indexOf_lt_length.mpr hpm
  have hkL : ((rankPairs arr).map Prod.snd).indexOf p < (rankPairs arr).length := by
    rwa [List.length_map] at hkl
  set k := ((rankPairs arr).map Prod.snd).indexOf p with hkdef
  set v := arr.getD p 0 with hv
  have hsnd : ((rankPairs arr)[k]).2 = p := by
    have h1 := List.getElem_indexOf hkl
    rw [List.getElem_map] at h1
    exact h1
  have hfst : ((rankPairs arr)[k]).1 = v := by
    have hmem : (rankPairs arr)[k] ∈ arr.enum.map fun q : Nat × ℚ => (q.2, q.1) :=
      (rankPairs_perm arr).subset (List.getElem_mem hkL)
    obtain ⟨q, hq, hq2⟩ := List.mem_map.mp hmem
    obtain ⟨qi, qx⟩ := q
    have hqi : qi = p := by
      have h2 := congrArg Prod.snd hq2
      simpa [hsnd] using h2
    subst hqi
    have hget : arr[qi]? = some qx := List.mk_mem_enum_iff_getElem?.mp hq
    rw [List.getElem?_eq_getElem hp] at hget
    have hqx : qx = v := by
      rw [hv, List.getD_eq_getElem _ _ hp]
      exact (Option.some_injective _ hget).symm
    have h3 := congrArg Prod.fst hq2
    rw [← h3]
    exact hqx
  have hpair := List.pairwise_iff_getElem.mp (rankPairs_sorted arr)
  have hfstnd : ((rankPairs arr).map Prod.fst).Nodup := (rankPairs_fst_perm arr).nodup_iff.mpr hnd
  have hne : ∀ i j (hi : i < (rankPairs arr).length) (hj : j < (rankPairs arr).length), i ≠ j →
      ((rankPairs arr)[i]).1 ≠ ((rankPairs arr)[j]).1 := by
    intro i j hi hj hij hcontra
    apply hij
    have hi2 : i < ((rankPairs arr).map Prod.fst).length := by rwa [List.length_map]
    have hj2 : j < ((rankPairs arr).map Prod.fst).length := by rwa [List.length_map]
    have hmm : ((rankPairs arr).map Prod.fst)[i] = ((rankPairs arr).map Prod.fst)[j] := by
      simp only [List.getElem_map]
      exact hcontra
    exact (hfstnd.getElem_inj_iff).mp hmm
  have hbefore : ∀ j (hj : j < k), ((rankPairs arr)[j]).1 < v := by
    intro j hj
    have hle := hpair j k (lt_trans hj hkL) hkL hj
    rcases lt_or_eq_of_le hle with h | h
    · rwa [hfst] at h
    · exact absurd h (hne j k (lt_trans hj hkL) hkL (Nat.ne_of_lt hj))
  have hafter : ∀ j (hj : j < (rankPairs arr).length), k ≤ j →
      ¬(((rankPairs arr)[j]).1 < v) := by
    intro j hj hkj
    rcases Nat.eq_or_lt_of_le hkj with heq | hlt
    · have : ((rankPairs arr)[j]).1 = v := by
        subst heq
        exact hfst
      rw [this]
      exact lt_irrefl v
    · have hle := hpair k j hkL hj hlt
      rw [hfst] at hle
      exact not_lt.mpr hle
  have hcount : (rankPairs arr).countP (fun e => decide (e.1 < v)) = k := by
    conv_lhs => rw [(List.take_append_drop k (rankPairs arr)).symm]
    rw [List.countP_append]
    have h1 : ((rankPairs arr).take k).countP (fun e => decide (e.1 < v)) = k := by
      have hall : ∀ e ∈ (rankPairs arr).take k, (fun e : ℚ × Nat => decide (e.1 < v)) e = true := by
        intro e he
        obtain ⟨j, hj, hje⟩ := List.mem_iff_getElem.mp he
        have hjk : j < k := by
          have h4 := hj
          rw [List.length_take] at h4
          omega
        have h5 : ((rankPairs arr).take k)[j] = (rankPairs arr)[j] := by
          simp [List.getElem_take]
        rw [← hje, h5]
        exact decide_eq_true (hbefore j hjk)
      rw [List.countP_eq_length.mpr hall, List.length_take, min_eq_left (le_of_lt hkL)]
    have h2 : ((rankPairs arr).drop k).countP (fun e => decide (e.1 < v)) = 0 := by
      rw [List.countP_eq_zero]
      intro e he
      obtain ⟨j, hj, hje⟩ := List.mem_iff_getElem.mp he
      have hlen : k + j < (rankPairs arr).length := by
        have h4 := hj
        rw [List.length_drop] at h4
        omega
      have hd : ((rankPairs arr).drop k)[j] = (rankPairs arr)[k + j] :=
        List.getElem_drop ..
      rw [← hje, hd]
      simp only [decide_eq_true_eq]
      exact hafter (k + j) hlen (Nat.le_add_right k j)
    rw [h1, h2]
    omega
  rw [← hcount]
  calc (rankPairs arr).countP (fun e => decide (e.1 < v))
      = (rankPairs arr).countP ((fun w => decide (w < v)) ∘ Prod.fst) := rfl
    _ = ((rankPairs arr).map Prod.fst).countP (fun w => decide (w < v)) :=
        (List.countP_map _ _ _).symm
    _ = arr.countP (fun w => decide (w < v)) := (rankPairs_fst_perm arr).countP_eq _

/-!
## The Spearman formula on non-degenerate input
-/

/-- The denominator `n·(n²−1)` is positive once `n ≥ 2`. -/
theorem denom_pos (n : ℕ) (h2 : 2 ≤ n) : 0 < (n : ℚ) * ((n : ℚ) * (n : ℚ) - 1) := by
  have hc : (2 : ℚ) ≤ (n : ℚ) := by exact_mod_cast h2
  nlinarith

/-- The `Σ d²` loop as an indexed sum of 0-based rank-position differences
(the `+1`s of the two ranks cancel). -/
theorem dSquaredSum_eq (x y : List ℚ) (hlen : x.length = y.length) :
    (((rankList x).zip (rankList y)).map fun p => (p.1 - p.2) ^ 2).sum =
      ∑ i in Finset.range x.length,
        (((rankAux x).getD i 0 : ℚ) - ((rankAux y).getD i 0 : ℚ)) ^ 2 := by
  have hl : (rankList x).length = (rankList y).length := by
    rw [rankList_length, rankList_length, hlen]
  rw [zip_map_sum (fun p => (p.1 - p.2) ^ 2) _ _ hl, rankList_length]
  refine Finset.sum_congr rfl ?_
  intro i hi
  have hix : i < x.length := Finset.mem_range.mp hi
  have hiy : i < y.length := hlen ▸ hix
  rw [rankList_getD x i hix, rankList_getD y i hiy]
  ring

/-- On equal lengths `≥ 2` the guard falls through and the division is by
a non-zero denominator, giving the closed Spearman formula. -/
theorem spearman_formula (x y : List ℚ) (hlen : x.length = y.length) (h2 : 2 ≤ x.length) :
    spearmanCorrelation x y =
      some (1 - 6 * (∑ i in Finset.range x.length,
          (((rankAux x).getD i 0 : ℚ) - ((rankAux y).getD i 0 : ℚ)) ^ 2) /
        ((x.length : ℚ) * ((x.length : ℚ) * (x.length : ℚ) - 1))) := by
  have hne : ¬(x.length ≠ y.length ∨ x.length = 0) := by
    push_neg
    exact ⟨hlen, by omega⟩
  have hD : (x.length : ℚ) * ((x.length : ℚ) * (x.length : ℚ) - 1) ≠ 0 :=
    ne_of_gt (denom_pos x.length h2)
  simp only [spearmanCorrelation, jsDiv]
  rw [if_neg hne, if_neg hD, Option.map_some', dSquaredSum_eq x y hlen]

/-- Rearrangement bound: for two lists of 0-based rank positions, each a
permutation of `0, …, n−1`, the squared differences sum to at most
`n·(n²−1)/3` (the value attained by opposite orders). -/
theorem sum_sq_diff_bound (n : ℕ) (A B : List ℕ)
    (hA : List.Perm A (List.range n)) (hB : List.Perm B (List.range n)) :
    ∑ i in Finset.range n, ((A.getD i 0 : ℚ) - (B.getD i 0 : ℚ)) ^ 2 ≤
      (n : ℚ) * ((n : ℚ) * (n : ℚ) - 1) / 3 := by
  have hAlen : A.length = n := by rw [hA.length_eq, List.length_range]
  have hBlen : B.length = n := by rw [hB.length_eq, List.length_range]
  have hAnd : A.Nodup := hA.nodup_iff.mpr (List.nodup_range n)
  have hBnd : B.Nodup := hB.nodup_iff.mpr (List.nodup_range n)
  have hAval : ∀ i : Fin n, A.getD i 0 < n := by
    intro i
    have hi' : (i : ℕ) < A.length := by omega
    rw [List.getD_eq_getElem _ _ hi']
    exact List.mem_range.mp (hA.subset (List.getElem_mem hi'))
  have hBval : ∀ i : Fin n, B.getD i 0 < n := by
    intro i
    have hi' : (i : ℕ) < B.length := by omega
    rw [List.getD_eq_getElem _ _ hi']
    exact List.mem_range.mp (hB.subset (List.getElem_mem hi'))
  set fA : Fin n → Fin n := fun i => ⟨A.getD i 0, hAval i⟩ with hfA
  set fB : Fin n → Fin n := fun i => ⟨B.getD i 0, hBval i⟩ with hfB
  have hfAinj : Function.Injective fA := by
    intro i j hij
    have h1 : A.getD i 0 = A.getD j 0 := congrArg Fin.val hij
    rw [List.getD_eq_getElem _ _ (by omega : (i : ℕ) < A.length),
      List.getD_eq_getElem _ _ (by omega : (j : ℕ) < A.length)] at h1
    exact Fin.ext (hAnd.getElem_inj_iff.mp h1)
  have hfBinj : Function.Injective fB := by
    intro i j hij
    have h1 : B.getD i 0 = B.getD j 0 := congrArg Fin.val hij
    rw [List.getD_eq_getElem _ _ (by omega : (i : ℕ) < B.length),
      List.getD_eq_getElem _ _ (by omega : (j : ℕ) < B.length)] at h1
    exact Fin.ext (hBnd.getElem_inj_iff.mp h1)
  have hsum : ∑ i in Finset.range n, ((A.getD i 0 : ℚ) - (B.getD i 0 : ℚ)) ^ 2 =
      ∑ i : Fin n, (((fA i : ℕ) : ℚ) - ((fB i : ℕ) : ℚ)) ^ 2 := by
    rw [← Fin.sum_univ_eq_sum_range (fun i => ((A.getD i 0 : ℚ) - (B.getD i 0 : ℚ)) ^ 2) n]
  rw [hsum]
  have hexp : ∑ i : Fin n, (((fA i : ℕ) : ℚ) - ((fB i : ℕ) : ℚ)) ^ 2 =
      ((∑ i : Fin n, ((fA i : ℕ) : ℚ) ^ 2) + ∑ i : Fin n, ((fB i : ℕ) : ℚ) ^ 2) -
        2 * ∑ i : Fin n, ((fA i : ℕ) : ℚ) * ((fB i : ℕ) : ℚ) := by
    rw [← Finset.sum_add_distrib, Finset.mul_sum, ← Finset.sum_sub_distrib]
    refine Finset.sum_congr rfl ?_
    intro i _
    ring
  rw [hexp]
  let eA : Fin n ≃ Fin n := Equiv.ofBijective fA (Finite.injective_iff_bijective.mp hfAinj)
  have heA : ∀ i, eA i = fA i := fun _ => rfl
  let eB : Fin n ≃ Fin n := Equiv.ofBijective fB (Finite.injective_iff_bijective.mp hfBinj)
  have heB : ∀ i, eB i = fB i := fun _ => rfl
  have hA2 : ∑ i : Fin n, ((fA i : ℕ) : ℚ) ^ 2 = ∑ i : Fin n, ((i : ℕ) : ℚ) ^ 2 := by
    have h := Equiv.sum_comp eA fun k : Fin n => ((k : ℕ) : ℚ) ^ 2
    rw [← h]
    refine Finset.sum_congr rfl ?_
    intro i _
    rw [heA]
  have hB2 : ∑ i : Fin n, ((fB i : ℕ) : ℚ) ^ 2 = ∑ i : Fin n, ((i : ℕ) : ℚ) ^ 2 := by
    have h := Equiv.sum_comp eB fun k : Fin n => ((k : ℕ) : ℚ) ^ 2
    rw [← h]
    refine Finset.sum_congr rfl ?_
    intro i _
    rw [heB]
  let π : Equiv.Perm (Fin n) := eA.symm.trans eB
  have hcross : ∑ i : Fin n, ((fA i : ℕ) : ℚ) * ((fB i : ℕ) : ℚ) =
      ∑ j : Fin n, ((j : ℕ) : ℚ) * ((π j : ℕ) : ℚ) := by
    have h := Equiv.sum_comp eA.symm fun i : Fin n => ((fA i : ℕ) : ℚ) * ((fB i : ℕ) : ℚ)
    rw [← h]
    refine Finset.sum_congr rfl ?_
    intro j _
    have h1 : fA (eA.symm j) = j := by
      rw [← heA]
      exact eA.apply_symm_apply j
    have h2 : fB (eA.symm j) = π j := rfl
    rw [h1, h2]
  rw [hA2, hB2, hcross]
  have hmono : Antivary (fun j : Fin n => ((j : ℕ) : ℚ))
      (fun j : Fin n => (n : ℚ) - 1 - ((j : ℕ) : ℚ)) := by
    intro i j hij
    simp only at hij ⊢
    have h1 : ((j : ℕ) : ℚ) < ((i : ℕ) : ℚ) := by linarith
    exact le_of_lt h1
  have hrearr : (∑ j : Fin n, ((j : ℕ) : ℚ) * ((n : ℚ) - 1 - ((j : ℕ) : ℚ))) ≤
      ∑ j : Fin n, ((j : ℕ) : ℚ) * ((n : ℚ) - 1 - (((π.trans Fin.revPerm) j : ℕ) : ℚ)) :=
    hmono.sum_mul_le_sum_mul_comp_perm
  have hid : ∀ j : Fin n, (n : ℚ) - 1 - (((π.trans Fin.revPerm) j : ℕ) : ℚ) =
      ((π j : ℕ) : ℚ) := by
    intro j
    have hval : (((π.trans Fin.revPerm) j : Fin n) : ℕ) = n - ((π j : ℕ) + 1) := by
      simp [Equiv.trans_apply, Fin.revPerm_apply, Fin.val_rev]
    rw [hval]
    have hlt : ((π j : ℕ) + 1) ≤ n := (π j).isLt
    rw [Nat.cast_sub hlt]
    push_cast
    ring
  have hrearr2 : (∑ j : Fin n, ((j : ℕ) : ℚ) * ((n : ℚ) - 1 - ((j : ℕ) : ℚ))) ≤
      ∑ j : Fin n, ((j : ℕ) : ℚ) * ((π j : ℕ) : ℚ) := by
    refine le_trans hrearr (le_of_eq ?_)
    refine Finset.sum_congr rfl ?_
    intro j _
    rw [hid j]
  have hS2 : ∑ i : Fin n, ((i : ℕ) : ℚ) ^ 2 =
      (n : ℚ) * ((n : ℚ) - 1) * (2 * (n : ℚ) - 1) / 6 := by
    rw [Fin.sum_univ_eq_sum_range (fun i => (i : ℚ) ^ 2) n]
    exact sum_range_cast_sq n
  have hLB : ∑ j : Fin n, ((j : ℕ) : ℚ) * ((n : ℚ) - 1 - ((j : ℕ) : ℚ)) =
      ((n : ℚ) - 1) * ((n : ℚ) * ((n : ℚ) - 1) / 2) -
        (n : ℚ) * ((n : ℚ) - 1) * (2 * (n : ℚ) - 1) / 6 := by
    rw [Fin.sum_univ_eq_sum_range (fun i => (i : ℚ) * ((n : ℚ) - 1 - (i : ℚ))) n]
    have hterm : ∀ i ∈ Finset.range n, (i : ℚ) * ((n : ℚ) - 1 - (i : ℚ)) =
        ((n : ℚ) - 1) * (i : ℚ) - (i : ℚ) ^ 2 := by
      intro i _
      ring
    rw [Finset.sum_congr rfl hterm, Finset.sum_sub_distrib, ← Finset.mul_sum,
      sum_range_cast, sum_range_cast_sq]
  rw [hS2]
  rw [hLB] at hrearr2
  nlinarith [hrearr2]

/-!
## Claims about `spearmanCorrelation`
-/

/-- Claim C10: `spearmanCorrelation` is symmetric — swapping the two input
sequences never changes the result (the guard is symmetric, and the
squared rank differences are). -/
theorem spearman_symm (x y : List ℚ) :
    spearmanCorrelation x y = spearmanCorrelation y x := by
  by_cases hlen : x.length = y.length
  · by_cases h0 : x.length = 0
    · simp only [spearmanCorrelation]
      rw [if_pos (Or.inr h0), if_pos (Or.inr (by omega))]
    · simp only [spearmanCorrelation]
      rw [if_neg (by push_neg; exact ⟨hlen, h0⟩), if_neg (by push_neg; omega)]
      have hD : (x.length : ℚ) = (y.length : ℚ) := by exact_mod_cast hlen
      have hl1 : (rankList x).length = (rankList y).length := by
        rw [rankList_length, rankList_length, hlen]
      have hl2 : (rankList y).length = (rankList x).length := hl1.symm
      have hS : (((rankList x).zip (rankList y)).map fun p => (p.1 - p.2) ^ 2).sum =
          (((rankList y).zip (rankList x)).map fun p => (p.1 - p.2) ^ 2).sum := by
        rw [zip_map_sum (fun p => (p.1 - p.2) ^ 2) _ _ hl1,
          zip_map_sum (fun p => (p.1 - p.2) ^ 2) _ _ hl2, rankList_length, rankList_length,
          hlen]
        refine Finset.sum_congr rfl ?_
        intro i _
        ring
      rw [hS, hD]
  · simp only [spearmanCorrelation]
    rw [if_pos (Or.inl hlen), if_pos (Or.inl fun h => hlen h.symm)]

/-- Claim C3 counterexample: at length `n = 1` the code does not
short-circuit; it evaluates the formula whose denominator `n·(n²−1)` is
`0`, and JS computes `1 − 0/0 = NaN` (modelled `none`), not a defined
numeric value. -/
theorem spearman_one_divides_by_zero : spearmanCorrelation [(1 : ℚ)] [(1 : ℚ)] = none := by
  norm_num [spearmanCorrelation, jsDiv]

/-- Claim C3 (amended): `spearmanCorrelation` returns `0` for mismatched
lengths and for an empty first sequence (which covers two empty
sequences); but at length `n = 1` it does divide by the zero denominator
`n·(n²−1)` and returns `NaN` (modelled `none`) rather than a defined
numeric value. -/
theorem spearman_degenerate (x y : List ℚ) :
    (x.length ≠ y.length ∨ x = [] → spearmanCorrelation x y = some 0) ∧
    (x.length = 1 → y.length = 1 → spearmanCorrelation x y = none) := by
  constructor
  · intro h
    simp only [spearmanCorrelation]
    rcases h with h | h
    · rw [if_pos (Or.inl h)]
    · rw [if_pos (Or.inr (by simp [h]))]
  · intro h1 h2
    simp only [spearmanCorrelation]
    rw [if_neg (by omega)]
    norm_num [jsDiv, h1]

/-- Witness for `spearman_degenerate`: two empty sequences give `0`, and
two length-1 sequences give `NaN`. -/
theorem spearman_degenerate_witness :
    spearmanCorrelation [] [] = some 0 ∧ spearmanCorrelation [(1 : ℚ)] [(2 : ℚ)] = none :=
  ⟨(spearman_degenerate [] []).1 (Or.inr rfl),
    (spearman_degenerate [(1 : ℚ)] [(2 : ℚ)]).2 rfl rfl⟩

/-- Claim C1 counterexample: a pair of equal-length (length-1) sequences
on which the returned value is `NaN` (modelled `none`), not a number
between `−1` and `1`. -/
theorem spearman_range_fails_at_one : spearmanCorrelation [(2 : ℚ)] [(3 : ℚ)] = none := by
  norm_num [spearmanCorrelation, jsDiv]

/-- Claim C1 (amended): except on a pair of length-1 sequences (where the
result is `NaN`), `spearmanCorrelation` returns a finite value in
`[−1, 1]`: mismatched lengths and length 0 give `0`, and for `n ≥ 2` the
formula value is bounded because `0 ≤ Σd² ≤ n·(n²−1)/3`. -/
theorem spearman_range_bound (x y : List ℚ) (h : ¬(x.length = 1 ∧ y.length = 1)) :
    ∃ r : ℚ, spearmanCorrelation x y = some r ∧ -1 ≤ r ∧ r ≤ 1 := by
  by_cases hlen : x.length = y.length
  · by_cases h0 : x.length = 0
    · refine ⟨0, ?_, by norm_num, by norm_num⟩
      simp only [spearmanCorrelation]
      rw [if_pos (Or.inr h0)]
    · have h2 : 2 ≤ x.length := by omega
      rw [spearman_formula x y hlen h2]
      refine ⟨_, rfl, ?_, ?_⟩
      all_goals
        have hDpos := denom_pos x.length h2
        have hSnn : (0 : ℚ) ≤ ∑ i in Finset.range x.length,
            (((rankAux x).getD i 0 : ℚ) - ((rankAux y).getD i 0 : ℚ)) ^ 2 :=
          Finset.sum_nonneg fun i _ => sq_nonneg _
        have hSub := sum_sq_diff_bound x.length (rankAux x) (rankAux y)
          (rankAux_perm x) (hlen ▸ rankAux_perm y)
        have hqn : 6 * (∑ i in Finset.range x.length,
            (((rankAux x).getD i 0 : ℚ) - ((rankAux y).getD i 0 : ℚ)) ^ 2) /
              ((x.length : ℚ) * ((x.length : ℚ) * (x.length : ℚ) - 1)) ≤ 2 := by
          rw [div_le_iff₀ hDpos]
          linarith
        have hq0 : 0 ≤ 6 * (∑ i in Finset.range x.length,
            (((rankAux x).getD i 0 : ℚ) - ((rankAux y).getD i 0 : ℚ)) ^ 2) /
              ((x.length : ℚ) * ((x.length : ℚ) * (x.length : ℚ) - 1)) :=
          div_nonneg (by linarith) (le_of_lt hDpos)
        linarith
  · refine ⟨0, ?_, by norm_num, by norm_num⟩
    simp only [spearmanCorrelation]
    rw [if_pos (Or.inl hlen)]

/-- Witness for `spearman_range_bound` at the concrete pair
`[1, 2]`, `[2, 1]`. -/
theorem spearman_range_bound_witness :
    ¬([(1 : ℚ), 2].length = 1 ∧ [(2 : ℚ), 1].length = 1) ∧
    ∃ r : ℚ, spearmanCorrelation [(1 : ℚ), 2] [(2 : ℚ), 1] = some r ∧ -1 ≤ r ∧ r ≤ 1 :=
  ⟨by simp, spearman_range_bound [(1 : ℚ), 2] [(2 : ℚ), 1] (by simp)⟩

/-- Claim C2: for a sequence of length at least 2 with all-distinct values
and a second sequence that reverses its value order, the Spearman
coefficient is exactly `−1`. -/
theorem spearman_reversed (x y : List ℚ) (hlen : x.length = y.length) (h2 : 2 ≤ x.length)
    (hnd : x.Nodup)
    (hrev : ∀ i j : ℕ, i < x.length → j < x.length →
      (x.getD i 0 < x.getD j 0 ↔ y.getD j 0 < y.getD i 0)) :
    spearmanCorrelation x y = some (-1) := by
  have hynd : y.Nodup := by
    have hx := List.pairwise_iff_getElem.mp hnd
    refine List.pairwise_iff_getElem.mpr ?_
    intro i j hi hj hij
    have hix : i < x.length := by omega
    have hjx : j < x.length := by omega
    have hxne : x.getD i 0 ≠ x.getD j 0 := by
      rw [List.getD_eq_getElem _ _ hix, List.getD_eq_getElem _ _ hjx]
      exact hx i j hix hjx hij
    have hyi : y.getD i 0 ≠ y.getD j 0 := by
      rcases lt_or_gt_of_ne hxne with h | h
      · exact ne_of_gt ((hrev i j hix hjx).mp h)
      · exact ne_of_lt ((hrev j i hjx hix).mp h)
    rw [List.getD_eq_getElem _ _ hi, List.getD_eq_getElem _ _ hj] at hyi
    exact hyi
  have key : ∀ p, p < x.length →
      ((rankAux y).getD p 0 : ℚ) = (x.length : ℚ) - 1 - ((rankAux x).getD p 0 : ℚ) := by
    intro p hp
    have hpy : p < y.length := by omega
    rw [rankAux_getD_nodup x hnd p hp, rankAux_getD_nodup y hynd p hpy]
    have hcy : y.countP (fun v => decide (v < y.getD p 0)) =
        x.countP fun v => decide (x.getD p 0 < v) := by
      rw [countP_eq_countP_range _ y, countP_eq_countP_range _ x, ← hlen,
        List.countP_eq_length_filter, List.countP_eq_length_filter]
      congr 1
      refine List.filter_congr ?_
      intro i hi
      have hi2 : i < x.length := List.mem_range.mp hi
      rw [decide_eq_decide]
      exact (hrev p i hp hi2).symm
    rw [hcy]
    set v₀ := x.getD p 0 with hv₀
    have hcongr : x.countP (fun v => decide (v < v₀) || (decide (v₀ < v) || decide (v = v₀))) =
        x.countP fun _ => true := by
      rw [List.countP_eq_length_filter, List.countP_eq_length_filter]
      congr 1
      refine List.filter_congr ?_
      intro v _
      rcases lt_trichotomy v v₀ with h | h | h <;> simp [h]
    have htrue : x.countP (fun _ => true) = x.length := by simp
    have hd1 : ∀ v ∈ x, ¬(decide (v < v₀) = true ∧
        (decide (v₀ < v) || decide (v = v₀)) = true) := by
      intro v _
      rintro ⟨ha, hb⟩
      rw [decide_eq_true_eq] at ha
      have hb2 : decide (v₀ < v) = true ∨ decide (v = v₀) = true := by simpa using hb
      rcases hb2 with h | h
      · rw [decide_eq_true_eq] at h
        exact lt_asymm ha h
      · rw [decide_eq_true_eq] at h
        rw [h] at ha
        exact lt_irrefl v₀ ha
    have hd2 : ∀ v ∈ x, ¬(decide (v₀ < v) = true ∧ decide (v = v₀) = true) := by
      intro v _
      rintro ⟨ha, hb⟩
      rw [decide_eq_true_eq] at ha hb
      rw [hb] at ha
      exact lt_irrefl v₀ ha
    have hsplit1 : x.countP (fun v => decide (v < v₀) || (decide (v₀ < v) || decide (v = v₀))) =
        x.countP (fun v => decide (v < v₀)) +
          x.countP (fun v => decide (v₀ < v) || decide (v = v₀)) :=
      countP_split (fun v => decide (v < v₀))
        (fun v => decide (v₀ < v) || decide (v = v₀)) x hd1
    have hsplit2 : x.countP (fun v => decide (v₀ < v) || decide (v = v₀)) =
        x.countP (fun v => decide (v₀ < v)) + x.countP (fun v => decide (v = v₀)) :=
      countP_split (fun v => decide (v₀ < v)) (fun v => decide (v = v₀)) x hd2
    have hcnt1 : x.countP (fun v => decide (v = v₀)) = 1 := by
      have hmem : v₀ ∈ x := by
        rw [hv₀, List.getD_eq_getElem _ _ hp]
        exact List.getElem_mem hp
      have hc := List.count_eq_one_of_mem hnd hmem
      rw [List.count_eq_countP, List.countP_eq_length_filter] at hc
      rw [List.countP_eq_length_filter]
      rw [show x.filter (fun v => decide (v = v₀)) = x.filter (· == v₀) from
        List.filter_congr fun v _ => by by_cases h : v = v₀ <;> simp [h]]
      exact hc
    have hpart : x.countP (fun v => decide (v < v₀)) +
        x.countP (fun v => decide (v₀ < v)) + 1 = x.length := by
      omega
    have hcast := congrArg (Nat.cast : ℕ → ℚ) hpart
    push_cast at hcast
    linarith
  rw [spearman_formula x y hlen h2]
  have hsum : (∑ i in Finset.range x.length,
      (((rankAux x).getD i 0 : ℚ) - ((rankAux y).getD i 0 : ℚ)) ^ 2) =
      (x.length : ℚ) * ((x.length : ℚ) * (x.length : ℚ) - 1) / 3 := by
    have h1 : ∀ i ∈ Finset.range x.length,
        (((rankAux x).getD i 0 : ℚ) - ((rankAux y).getD i 0 : ℚ)) ^ 2 =
          (2 * ((rankAux x).getD i 0 : ℚ) - ((x.length : ℚ) - 1)) ^ 2 := by
      intro i hi
      rw [key i (Finset.mem_range.mp hi)]
      ring
    rw [Finset.sum_congr rfl h1]
    have h2s := sum_range_getD (fun k => (2 * (k : ℚ) - ((x.length : ℚ) - 1)) ^ 2) (rankAux x)
    rw [rankAux_length] at h2s
    rw [h2s,
      ((rankAux_perm x).map fun k : ℕ => (2 * (k : ℚ) - ((x.length : ℚ) - 1)) ^ 2).sum_eq,
      list_range_map_sum, sum_range_shift_sq]
    ring
  rw [hsum]
  have hD : (x.length : ℚ) * ((x.length : ℚ) * (x.length : ℚ) - 1) ≠ 0 :=
    ne_of_gt (denom_pos x.length h2)
  congr 1
  field_simp
  ring

/-- Witness for `spearman_reversed` at `x = [1, 3, 2]`, `y = [3, 1, 2]`
(each `yᵢ = 4 − xᵢ`, so the value order is reversed). -/
theorem spearman_reversed_witness :
    [(1 : ℚ), 3, 2].length = [(3 : ℚ), 1, 2].length ∧ 2 ≤ [(1 : ℚ), 3, 2].length ∧
    [(1 : ℚ), 3, 2].Nodup ∧
    (∀ i j : ℕ, i < [(1 : ℚ), 3, 2].length → j < [(1 : ℚ), 3, 2].length →
      ([(1 : ℚ), 3, 2].getD i 0 < [(1 : ℚ), 3, 2].getD j 0 ↔
        [(3 : ℚ), 1, 2].getD j 0 < [(3 : ℚ), 1, 2].getD i 0)) ∧
    spearmanCorrelation [(1 : ℚ), 3, 2] [(3 : ℚ), 1, 2] = some (-1) := by
  have hlen : [(1 : ℚ), 3, 2].length = [(3 : ℚ), 1, 2].length := rfl
  have h2 : 2 ≤ [(1 : ℚ), 3, 2].length := by simp
  have hnd : [(1 : ℚ), 3, 2].Nodup := by norm_num
  have hrev : ∀ i j : ℕ, i < [(1 : ℚ), 3, 2].length → j < [(1 : ℚ), 3, 2].length →
      ([(1 : ℚ), 3, 2].getD i 0 < [(1 : ℚ), 3, 2].getD j 0 ↔
        [(3 : ℚ), 1, 2].getD j 0 < [(3 : ℚ), 1, 2].getD i 0) := by
    intro i j hi hj
    simp only [List.length_cons, List.length_nil] at hi hj
    interval_cases i <;> interval_cases j <;> norm_num
  exact ⟨hlen, h2, hnd, hrev, spearman_reversed _ _ hlen h2 hnd hrev⟩

/-!
## Structure of the correlation matrix
-/

/-- The loop enumeration order, written out. -/
theorem pairIndices_eq : pairIndices = [(0, 1), (0, 2), (0, 3), (1, 2), (1, 3), (2, 3)] := rfl

/-- The unsorted matrix is the six entries in enumeration order. -/
theorem matrixEntries_eq (data : List DataItem) :
    matrixEntries data = [mkEntry data 0 1, mkEntry data 0 2, mkEntry data 0 3,
      mkEntry data 1 2, mkEntry data 1 3, mkEntry data 2 3] := by
  rw [matrixEntries, pairIndices_eq]
  rfl

/-- The variable pairs of the unsorted matrix are the canonical six. -/
theorem matrixEntries_pairs (data : List DataItem) :
    (matrixEntries data).map (fun e => (e.var1, e.var2)) = canonicalPairs := by
  rw [matrixEntries_eq]
  rfl

/-- The sort relation is total. -/
theorem sortRel_total : ∀ a b : CorrelationItem, sortRel a b ∨ sortRel b a := by
  intro a b
  unfold sortRel sortRelB
  cases hA : sortKey a <;> cases hB : sortKey b <;> simp
  exact le_total _ _

/-- The sort relation is transitive. -/
theorem sortRel_trans : ∀ a b c : CorrelationItem, sortRel a b → sortRel b c → sortRel a c := by
  intro a b c hab hbc
  unfold sortRel sortRelB at hab hbc ⊢
  cases hA : sortKey a <;> cases hB : sortKey b <;> cases hC : sortKey c <;>
    rw [hA, hB] at hab <;> rw [hB, hC] at hbc <;> simp_all
  exact le_trans hbc hab

/-- In enumeration order the pair indices strictly increase. -/
theorem matrixEntries_pairIdx (data : List DataItem) :
    (matrixEntries data).Pairwise fun a b => pairIdx a < pairIdx b := by
  rw [matrixEntries_eq]
  have h01 : pairIdx (mkEntry data 0 1) = 0 := rfl
  have h02 : pairIdx (mkEntry data 0 2) = 1 := rfl
  have h03 : pairIdx (mkEntry data 0 3) = 2 := rfl
  have h12 : pairIdx (mkEntry data 1 2) = 3 := rfl
  have h13 : pairIdx (mkEntry data 1 3) = 4 := rfl
  have h23 : pairIdx (mkEntry data 2 3) = 5 := rfl
  norm_num [List.pairwise_cons, h01, h02, h03, h12, h13, h23]

/-- Claim C4: for non-empty records, `calculateCorrelationMatrix` returns
exactly 6 entries whose unordered variable pairs are exactly the canonical
six, each appearing once — never both `(A, B)` and `(B, A)`. -/
theorem correlationMatrix_pairs (data : List DataItem) (_hne : data ≠ []) :
    (calculateCorrelationMatrix data).length = 6 ∧
    List.Perm ((calculateCorrelationMatrix data).map fun e => (e.var1, e.var2))
      canonicalPairs := by
  constructor
  · rw [calculateCorrelationMatrix, List.length_insertionSort, matrixEntries_eq]
    rfl
  · have hperm : List.Perm (calculateCorrelationMatrix data) (matrixEntries data) :=
      List.perm_insertionSort _ _
    have h := hperm.map fun e => (e.var1, e.var2)
    rw [matrixEntries_pairs] at h
    exact h

/-- Witness for `correlationMatrix_pairs` on a one-record list. -/
theorem correlationMatrix_pairs_witness :
    ([⟨1, 1, 1, 1, 1, "x"⟩] : List DataItem) ≠ [] ∧
    ((calculateCorrelationMatrix [⟨1, 1, 1, 1, 1, "x"⟩]).length = 6 ∧
      List.Perm ((calculateCorrelationMatrix [⟨1, 1, 1, 1, 1, "x"⟩]).map
        fun e => (e.var1, e.var2)) canonicalPairs) :=
  ⟨by simp, correlationMatrix_pairs _ (by simp)⟩

/-- Claim C5: the output of `calculateCorrelationMatrix` never has an
entry whose absolute stored coefficient exceeds that of an earlier entry
(`NaN` coefficients compare false, so they violate nothing), and entries
with equal sort keys stay in the fixed pair-enumeration order (the sort is
stable). -/
theorem correlationMatrix_sorted (data : List DataItem) :
    (calculateCorrelationMatrix data).Pairwise fun a b =>
      (∀ p q : ℚ, a.correlation = some p → b.correlation = some q → |q| ≤ |p|) ∧
      (sortKey a = sortKey b → pairIdx a < pairIdx b) := by
  have h := insertionSort_pairwise_strong sortRel (fun a b => pairIdx a < pairIdx b)
    sortRel_total sortRel_trans (matrixEntries data) (matrixEntries_pairIdx data)
  rw [calculateCorrelationMatrix]
  refine h.imp ?_
  rintro a b ⟨hab, hstable⟩
  constructor
  · intro p q hp hq
    have hA : sortKey a = some |p| := by rw [sortKey, hp]; rfl
    have hB : sortKey b = some |q| := by rw [sortKey, hq]; rfl
    unfold sortRel sortRelB at hab
    rw [hA, hB] at hab
    simpa using hab
  · intro hkey
    apply hstable
    unfold sortRel sortRelB
    rw [← hkey]
    cases hA : sortKey a
    · rfl
    · simp

/-!
## Claims C6 and C9: significance and the empty input
-/

/-- The intensity column of `recs20` is `xCol`. -/
theorem recs20_intensity :
    recs20.map (fun d => getField d (variableNames.getD 0 "")) = xCol := rfl

/-- The dependency column of `recs20` is `yCol`. -/
theorem recs20_dependency :
    recs20.map (fun d => getField d (variableNames.getD 1 "")) = yCol := rfl

set_option maxRecDepth 10000 in
set_option maxHeartbeats 2000000 in
/-- The Spearman coefficient of the crafted 20-point columns:
`1 − 6·998/(20·399) = 166/665 ≈ 0.24956`. -/
theorem spearman_xCol_yCol : spearmanCorrelation xCol yCol = some (166 / 665) := by
  norm_num [spearmanCorrelation, rankList, rankAux, rankPairs, List.enum, List.insertionSort,
    List.orderedInsert, List.indexOf, List.findIdx, List.findIdx.go, jsDiv, List.range_succ,
    Bool.cond_eq_ite, beq_iff_eq, xCol, yCol]

/-- Rounding the crafted coefficient to three decimals gives exactly `1/4`. -/
theorem toFixed3_crafted : toFixed3 (166 / 665 : ℚ) = 1 / 4 := by
  rw [toFixed3_eq (166 / 665 : ℚ) 250 (by norm_num) (by norm_num)]
  norm_num

/-- Claim C6 counterexample: on `recs20`, the `(intensity, dependency)`
entry stores `rho = 0.25` (so `|stored rho| ≥ 0.25`) yet has
`significant = false`, because significance is decided on the unrounded
coefficient `166/665 < 1/4` before rounding. -/
theorem significant_not_from_stored :
    ∃ e : CorrelationItem, e ∈ calculateCorrelationMatrix recs20 ∧
      e.significant = false ∧ jsAbsGe e.correlation (1 / 4) = true := by
  refine ⟨mkEntry recs20 0 1, ?_, ?_, ?_⟩
  · rw [calculateCorrelationMatrix, List.mem_insertionSort, matrixEntries_eq]
    simp
  · show jsAbsGe (spearmanCorrelation
        (recs20.map fun d => getField d (variableNames.getD 0 ""))
        (recs20.map fun d => getField d (variableNames.getD 1 ""))) (1 / 4) = false
    rw [recs20_intensity, recs20_dependency, spearman_xCol_yCol]
    norm_num [jsAbsGe]
    rw [abs_of_pos (by norm_num : (0 : ℚ) < 166 / 665)]
    norm_num
  · show jsAbsGe ((spearmanCorrelation
        (recs20.map fun d => getField d (variableNames.getD 0 ""))
        (recs20.map fun d => getField d (variableNames.getD 1 ""))).map toFixed3)
        (1 / 4) = true
    rw [recs20_intensity, recs20_dependency, spearman_xCol_yCol, Option.map_some',
      toFixed3_crafted]
    norm_num [jsAbsGe]
    rw [abs_of_pos (by norm_num : (0 : ℚ) < 1 / 4)]

/-- Claim C6 (amended): every entry stores the rounded coefficient of its
two variable columns, and `significant` is true exactly when the absolute
value of the UNROUNDED coefficient is at least `0.25` (so the boundary
case `|corr| = 0.25` is significant); the stored rounded `rho` can
disagree with the flag near the threshold. -/
theorem significant_iff_unrounded (data : List DataItem) (e : CorrelationItem)
    (he : e ∈ calculateCorrelationMatrix data) :
    e.correlation = (spearmanCorrelation (data.map fun d => getField d e.var1)
        (data.map fun d => getField d e.var2)).map toFixed3 ∧
    (e.significant = true ↔ jsAbsGe (spearmanCorrelation
        (data.map fun d => getField d e.var1)
        (data.map fun d => getField d e.var2)) (1 / 4) = true) := by
  rw [calculateCorrelationMatrix, List.mem_insertionSort, matrixEntries] at he
  obtain ⟨p, hp, rfl⟩ := List.mem_map.mp he
  exact ⟨rfl, Iff.rfl⟩

/-- `calculateCorrelationMatrix` on an empty record list builds the
`(intensity, dependency)` zero entry. -/
theorem mkEntry_empty (i j : ℕ) :
    mkEntry [] i j = ⟨variableNames.getD i "", variableNames.getD j "", labels.getD i "",
      labels.getD j "", some 0, false⟩ := by
  show (⟨variableNames.getD i "", variableNames.getD j "", labels.getD i "", labels.getD j "",
    some (toFixed3 0), jsAbsGe (some 0) (1 / 4)⟩ : CorrelationItem) = _
  have h1 : toFixed3 (0 : ℚ) = 0 := by
    rw [toFixed3_eq 0 0 (by norm_num) (by norm_num)]
    norm_num
  have h2 : jsAbsGe (some (0 : ℚ)) (1 / 4) = false := by norm_num [jsAbsGe]
  rw [h1, h2]

/-- Witness for `significant_iff_unrounded` at the empty record list and
its first entry. -/
theorem significant_iff_unrounded_witness :
    zeroEntryID ∈ calculateCorrelationMatrix [] ∧
    (zeroEntryID.significant = true ↔ jsAbsGe (spearmanCorrelation
        (([] : List DataItem).map fun d => getField d zeroEntryID.var1)
        (([] : List DataItem).map fun d => getField d zeroEntryID.var2)) (1 / 4) = true) := by
  have hz : zeroEntryID = mkEntry [] 0 1 := by
    rw [mkEntry_empty 0 1]
    rfl
  have hmem : zeroEntryID ∈ calculateCorrelationMatrix [] := by
    rw [hz, calculateCorrelationMatrix, List.mem_insertionSort, matrixEntries_eq]
    simp
  exact ⟨hmem, (significant_iff_unrounded [] zeroEntryID hmem).2⟩

/-- Claim C9 counterexample: on an empty record list the function itself
does not return an empty sequence. -/
theorem correlationMatrix_empty_ne_nil :
    calculateCorrelationMatrix ([] : List DataItem) ≠ [] := by
  intro h
  have hlen := congrArg List.length h
  rw [calculateCorrelationMatrix, List.length_insertionSort, matrixEntries_eq] at hlen
  simp at hlen

/-- Claim C9 (amended): on an empty record list the dashboard's inline
guard (line 334) substitutes an empty sequence without calling the
function; `calculateCorrelationMatrix` itself returns the six degenerate
entries (`rho = 0`, not significant) in enumeration order, without
error. -/
theorem correlationMatrix_empty :
    dashboardCorrelations [] = [] ∧ calculateCorrelationMatrix [] = emptyMatrix := by
  constructor
  · simp [dashboardCorrelations]
  · have hentries : matrixEntries ([] : List DataItem) = emptyMatrix := by
      rw [matrixEntries_eq, mkEntry_empty 0 1, mkEntry_empty 0 2, mkEntry_empty 0 3,
        mkEntry_empty 1 2, mkEntry_empty 1 3, mkEntry_empty 2 3]
      rfl
    rw [calculateCorrelationMatrix, hentries]
    refine List.Sorted.insertionSort_eq ?_
    have hrel : ∀ a b : CorrelationItem, a.correlation = some 0 → b.correlation = some 0 →
        sortRel a b := by
      intro a b ha hb
      unfold sortRel sortRelB sortKey
      rw [ha, hb]
      simp
    have hcor : ∀ e ∈ emptyMatrix, e.correlation = some 0 := by
      intro e he
      fin_cases he <;> rfl
    refine List.pairwise_of_forall_mem_list ?_
    intro a ha b hb
    exact hrel a b (hcor a ha) (hcor b hb)

/-!
## Claims about the CSV score deriver
-/

/-- Claim C8: after scoring, the filter tests exactly `isNaN(intensity)`,
and since every computed intensity is a finite number (cell failures
default to `0` before the arithmetic), no computed row is ever dropped;
a short row like `a,b,c` is kept (all cells default to 0), while a CSV
whose only data line is whitespace loses that line to `trim()` before
splitting, so it yields no rows. -/
theorem parse_row_filter :
    (∀ csv : String, parseCSVData csv =
      ((splitNewline (jsTrim csv.data)).drop 1).enum.map fun p => scoreRow p.1 p.2) ∧
    (parseCSVData "h\na,b,c").length = 1 ∧ (parseCSVData "h\n   ").length = 0 := by
  refine ⟨?_, ?_, ?_⟩
  · intro csv
    rw [parseCSVData]
    simp [jsIsNaN]
  · rfl
  · rfl

/-- Claim C7: the synthetic row with fives in columns 2, 4, 5, 18, 19 and
ones elsewhere scores `intensity = 5.00`; a row whose column 2 reads `3`
is classified `Moderate/Light`, and one whose column 2 reads `4` or more
is classified `Heavy User (>6 Jam)`. -/
theorem parse_scoring :
    ((parseCSVData csv7).map fun d => d.intensity) = [5] ∧
    (∀ idx : ℕ, ∀ line : List Char, getVal (qsplit line) 2 = 3 →
      (scoreRow idx line).usageGroup = "Moderate/Light") ∧
    (∀ idx : ℕ, ∀ line : List Char, 4 ≤ getVal (qsplit line) 2 →
      (scoreRow idx line).usageGroup = "Heavy User (>6 Jam)") := by
  refine ⟨?_, ?_, ?_⟩
  · have h1 : ((parseCSVData csv7).map fun d => d.intensity) =
        [(scoreRow 0 row7).intensity] := rfl
    rw [h1]
    have hv2 : getVal (qsplit row7) 2 = 5 := by decide
    have hv4 : getVal (qsplit row7) 4 = 5 := by decide
    have hv5 : getVal (qsplit row7) 5 = 5 := by decide
    have hv18 : getVal (qsplit row7) 18 = 5 := by decide
    have hv19 : getVal (qsplit row7) 19 = 5 := by decide
    show [toFixed2 (((getVal (qsplit row7) 2 + getVal (qsplit row7) 4 + getVal (qsplit row7) 5 +
      getVal (qsplit row7) 18 + getVal (qsplit row7) 19 : ℤ) : ℚ) / 5)] = [5]
    rw [hv2, hv4, hv5, hv18, hv19]
    have h25 : (((5 + 5 + 5 + 5 + 5 : ℤ) : ℚ) / 5) = 5 := by norm_num
    rw [h25, toFixed2_eq 5 500 (by norm_num) (by norm_num)]
    norm_num
  · intro idx line h
    show (if 4 ≤ getVal (qsplit line) 2 then "Heavy User (>6 Jam)" else "Moderate/Light") = _
    rw [h]
    norm_num
  · intro idx line h
    show (if 4 ≤ getVal (qsplit line) 2 then "Heavy User (>6 Jam)" else "Moderate/Light") = _
    rw [if_pos h]

/-- Witness for `parse_scoring` on the rows `1,1,3` and `1,1,4`. -/
theorem parse_scoring_witness :
    getVal (qsplit ("1,1,3".data)) 2 = 3 ∧
    (scoreRow 0 ("1,1,3".data)).usageGroup = "Moderate/Light" ∧
    4 ≤ getVal (qsplit ("1,1,4".data)) 2 ∧
    (scoreRow 0 ("1,1,4".data)).usageGroup = "Heavy User (>6 Jam)" :=
  ⟨by decide, parse_scoring.2.1 0 _ (by decide), by decide,
    parse_scoring.2.2 0 _ (by decide)⟩
